import Mathlib

/-!
Verification of the algorithm functions in the JobTracker interview-practice
repository ("IBM Interview Practice").  Each Python function is shallowly
embedded as an executable Lean definition; theorems settle the specified
properties.  Machine integers are modelled as `Int`/`Nat` (Python integers are
unbounded, so no wraparound is needed); a Python runtime error (IndexError,
UnboundLocalError) is modelled as `Option.none`.
-/

namespace JobTracker

/-! ## Binary search (`binarySearch.py`)

```python
def binarySearch(nums, target):
    left = 0
    right = len(nums) - 1
    while left <= right:
        mid = (left + right) // 2
        if nums[mid] == target:
            return mid
        elif nums[mid] < target:
            left = mid + 1
        else:
            right = mid - 1
    return -1
```

`left`, `right`, `mid` are Python ints, modelled as `Int` (note `right` starts
at `-1` for the empty list).  Python `//` is floor division; for the positive
divisor `2`, Lean's euclidean `Int` division `/` agrees with it on every
dividend.  `nums[mid]` is modelled by `nums.get? mid.toNat`, with `none`
(IndexError) propagated to the result; `mid` is nonnegative in every reachable
state, so the `toNat` coercion is faithful there.
-/

def bsLoop (nums : List Int) (target : Int) (left right : Int) : Option Int :=
  if left ≤ right then
    let mid := (left + right) / 2
    match nums[mid.toNat]? with
    | none => none
    | some v =>
      if v = target then some mid
      else if v < target then bsLoop nums target (mid + 1) right
      else bsLoop nums target left (mid - 1)
  else some (-1)
termination_by (right + 1 - left).toNat
decreasing_by
  all_goals simp_wf
  all_goals omega

def binarySearch (nums : List Int) (target : Int) : Option Int :=
  bsLoop nums target 0 ((nums.length : Int) - 1)

section BinarySearchLemmas

variable {nums : List Int} {target left right : Int}

lemma bsLoop_of_gt (h : ¬ left ≤ right) : bsLoop nums target left right = some (-1) := by
  rw [bsLoop, if_neg h]

lemma bsLoop_of_eq (hlr : left ≤ right) {v : Int}
    (hget : nums[((left + right) / 2).toNat]? = some v) (hv : v = target) :
    bsLoop nums target left right = some ((left + right) / 2) := by
  rw [bsLoop, if_pos hlr]
  simp [hget, hv]

lemma bsLoop_of_lt (hlr : left ≤ right) {v : Int}
    (hget : nums[((left + right) / 2).toNat]? = some v) (hv : v < target) :
    bsLoop nums target left right = bsLoop nums target ((left + right) / 2 + 1) right := by
  rw [bsLoop, if_pos hlr]
  simp only [hget, if_neg (ne_of_lt hv), if_pos hv]

lemma bsLoop_of_gt' (hlr : left ≤ right) {v : Int}
    (hget : nums[((left + right) / 2).toNat]? = some v) (hv : target < v) :
    bsLoop nums target left right = bsLoop nums target left ((left + right) / 2 - 1) := by
  rw [bsLoop, if_pos hlr]
  simp only [hget, if_neg (ne_of_gt hv), if_neg (asymm hv)]

lemma sorted_getD_lt (hs : nums.Pairwise (· < ·)) {i j : Nat}
    (hj : j < nums.length) (hij : i < j) :
    nums.getD i 0 < nums.getD j 0 := by
  have hi : i < nums.length := lt_trans hij hj
  rw [List.getD_eq_getElem _ _ hi, List.getD_eq_getElem _ _ hj]
  exact List.pairwise_iff_getElem.mp hs i j hi hj hij

end BinarySearchLemmas

/-- Invariant-based correctness of the binary-search loop: when every index
left of `left` holds a value below `target` and every index right of `right`
holds a value above it, the loop finds the index of `target` when it occurs
and returns `-1` when it does not. -/
theorem bsLoop_spec (nums : List Int) (target : Int) (hs : nums.Pairwise (· < ·))
    (left right : Int) (hl : 0 ≤ left) (hr : right < (nums.length : Int))
    (hlo : ∀ i : Nat, i < nums.length → (i : Int) < left → nums.getD i 0 < target)
    (hhi : ∀ i : Nat, i < nums.length → right < (i : Int) → target < nums.getD i 0) :
    (∀ i : Nat, i < nums.length → nums.getD i 0 = target →
        bsLoop nums target left right = some (i : Int)) ∧
    ((∀ i : Nat, i < nums.length → nums.getD i 0 ≠ target) →
        bsLoop nums target left right = some (-1)) := by
  by_cases hlr : left ≤ right
  · set mid : Int := (left + right) / 2 with hmid
    have hm1 : left ≤ mid := by omega
    have hm2 : mid ≤ right := by omega
    have hmn : mid.toNat < nums.length := by omega
    have hget : nums[mid.toNat]? = some (nums.getD mid.toNat 0) := by
      rw [List.getElem?_eq_getElem hmn, List.getD_eq_getElem _ _ hmn]
    rcases lt_trichotomy (nums.getD mid.toNat 0) target with hv | hv | hv
    · rw [bsLoop_of_lt hlr hget hv]
      have hlo' : ∀ i : Nat, i < nums.length → (i : Int) < mid + 1 →
          nums.getD i 0 < target := by
        intro i hi hile
        rcases lt_or_eq_of_le (by omega : i ≤ mid.toNat) with h | h
        · exact lt_trans (sorted_getD_lt hs hmn h) hv
        · rwa [h]
      exact bsLoop_spec nums target hs (mid + 1) right (by omega) hr hlo' hhi
    · constructor
      · intro i hi hit
        have : i = mid.toNat := by
          rcases lt_trichotomy i mid.toNat with h | h | h
          · exact absurd hit (ne_of_lt (by rw [← hv]; exact sorted_getD_lt hs hmn h))
          · exact h
          · exact absurd hit (ne_of_gt (by rw [← hv]; exact sorted_getD_lt hs hi h))
        rw [bsLoop_of_eq hlr hget hv]
        congr 1
        omega
      · intro hnone
        exact absurd hv (hnone mid.toNat hmn)
    · rw [bsLoop_of_gt' hlr hget hv]
      have hhi' : ∀ i : Nat, i < nums.length → mid - 1 < (i : Int) →
          target < nums.getD i 0 := by
        intro i hi hile
        rcases lt_or_eq_of_le (by omega : mid.toNat ≤ i) with h | h
        · exact lt_trans hv (sorted_getD_lt hs hi h)
        · rwa [← h]
      exact bsLoop_spec nums target hs left (mid - 1) hl (by omega) hlo hhi'
  · rw [bsLoop_of_gt hlr]
    constructor
    · intro i hi hit
      rcases lt_or_le (i : Int) left with h | h
      · exact absurd hit (ne_of_lt (hlo i hi h))
      · exact absurd hit (ne_of_gt (hhi i hi (by omega)))
    · intro _
      rfl
termination_by (right + 1 - left).toNat
decreasing_by
  all_goals simp_wf
  all_goals omega

/-- The binary-search loop never hits the out-of-bounds branch and always
yields a result, for arbitrary (even unsorted) input. -/
theorem bsLoop_isSome (nums : List Int) (target : Int) (left right : Int)
    (hl : 0 ≤ left) (hr : right < (nums.length : Int)) :
    ∃ r : Int, bsLoop nums target left right = some r := by
  by_cases hlr : left ≤ right
  · set mid : Int := (left + right) / 2 with hmid
    have hm1 : left ≤ mid := by omega
    have hm2 : mid ≤ right := by omega
    have hmn : mid.toNat < nums.length := by omega
    have hget : nums[mid.toNat]? = some (nums.getD mid.toNat 0) := by
      rw [List.getElem?_eq_getElem hmn, List.getD_eq_getElem _ _ hmn]
    rcases lt_trichotomy (nums.getD mid.toNat 0) target with hv | hv | hv
    · rw [bsLoop_of_lt hlr hget hv]
      exact bsLoop_isSome nums target (mid + 1) right (by omega) hr
    · exact ⟨mid, bsLoop_of_eq hlr hget hv⟩
    · rw [bsLoop_of_gt' hlr hget hv]
      exact bsLoop_isSome nums target left (mid - 1) hl (by omega)
  · exact ⟨-1, bsLoop_of_gt hlr⟩
termination_by (right + 1 - left).toNat
decreasing_by
  all_goals simp_wf
  all_goals omega

/-- C1: for a strictly increasing sequence, `binarySearch` returns the unique
index holding `target` when present, returns `-1` when absent, and in
particular returns `-1` on the empty sequence. -/
theorem binarySearch_correct (nums : List Int) (target : Int)
    (hs : nums.Pairwise (· < ·)) :
    (∀ i : Nat, i < nums.length → nums.getD i 0 = target →
        binarySearch nums target = some (i : Int)) ∧
    (target ∉ nums → binarySearch nums target = some (-1)) ∧
    (nums = [] → binarySearch nums target = some (-1)) := by
  have h := bsLoop_spec nums target hs 0 ((nums.length : Int) - 1) le_rfl (by omega)
    (fun i _ hi => absurd hi (by omega))
    (fun i hi hri => absurd hri (by omega))
  refine ⟨h.1, fun hmem => h.2 ?_, fun hnil => h.2 ?_⟩
  · intro i hi hit
    have hm : nums.getD i 0 ∈ nums := by
      rw [List.getD_eq_getElem _ _ hi]
      exact List.getElem_mem hi
    exact hmem (hit ▸ hm)
  · intro i hi
    rw [hnil] at hi
    exact absurd hi (by simp)

/-- C1 witness: on the strictly increasing list `[2, 5, 7]`, the search finds
`5` at index `1` and reports `-1` for the absent value `4`. -/
theorem binarySearch_correct_witness :
    binarySearch [2, 5, 7] 5 = some 1 ∧ binarySearch [2, 5, 7] 4 = some (-1) :=
  ⟨(binarySearch_correct [2, 5, 7] 5 (by decide)).1 1 (by decide) rfl,
   (binarySearch_correct [2, 5, 7] 4 (by decide)).2.1 (by decide)⟩

/-- C10: for every list (sorted or not) and every target, `binarySearch`
terminates without ever indexing out of bounds: the error branch of the
embedded indexing is unreachable and a result is always produced. -/
theorem binarySearch_total (nums : List Int) (target : Int) :
    ∃ r : Int, binarySearch nums target = some r :=
  bsLoop_isSome nums target 0 ((nums.length : Int) - 1) le_rfl (by omega)

/-! ## Valid parentheses (`validParenthesis(isValid).py`, `PatternSkeletons/Stacks.py`)

```python
def isValid(s):
    stack = []
    mapping = {')': '(', ']': '[', '}': '{'}
    for char in s:
        if char in mapping:
            if not stack or stack.pop() != mapping[char]:
                return False
        else:
            stack.append(char)
    return not stack
```

The stack grows at its Python tail; it is embedded with its top at the head of
a Lean list (`append` = cons, `pop` = uncons).  The dictionary `mapping` is
embedded as a function to `Option Char`.
-/

def mapping (c : Char) : Option Char :=
  if c = ')' then some '('
  else if c = ']' then some '['
  else if c = '}' then some '{'
  else none

def isValidGo (stack : List Char) : List Char → Bool
  | [] => stack.isEmpty
  | c :: rest =>
    match mapping c with
    | some o =>
      match stack with
      | [] => false
      | t :: stack2 => if t ≠ o then false else isValidGo stack2 rest
    | none => isValidGo (c :: stack) rest

def isValid (s : List Char) : Bool := isValidGo [] s

/-- The placeholder fallback definition at
`validParenthesis(isValid).py:32-38` ("if I go blank"): its loop body is
`pass`, so it returns `True` for every input. -/
def isValid_blank (s : List Char) : Bool :=
  match s with
  | [] => true
  | _ :: rest => isValid_blank rest

/-- The `Stacks.py` copy of `isValid`: the same algorithm written with the
dictionary entries in the order `)(`, `}{`, `][` and with two separate
early-return `if` statements instead of an `or`. -/
def mapping_st (c : Char) : Option Char :=
  if c = ')' then some '('
  else if c = '}' then some '{'
  else if c = ']' then some '['
  else none

def isValidGo_st (stack : List Char) : List Char → Bool
  | [] => stack.isEmpty
  | c :: rest =>
    match mapping_st c with
    | some o =>
      match stack with
      | [] => false
      | t :: stack2 => if t ≠ o then false else isValidGo_st stack2 rest
    | none => isValidGo_st (c :: stack) rest

def isValid_st (s : List Char) : Bool := isValidGo_st [] s

/-- The Dyck language over the three bracket pairs: the specification-side
notion of a balanced bracket string (each closer matches the most recent
unmatched opener and nothing stays unmatched). -/
inductive Balanced : List Char → Prop
  | nil : Balanced []
  | wrap : ∀ (o c : Char) (s : List Char), mapping c = some o → Balanced s →
      Balanced (o :: s ++ [c])
  | append : ∀ (s t : List Char), Balanced s → Balanced t → Balanced (s ++ t)

/-- Big-step view of the stack machine: `BalStack stack cs` holds when input
`cs` drives the machine from state `stack` to the accepting empty stack. -/
inductive BalStack : List Char → List Char → Prop
  | done : BalStack [] []
  | push : ∀ (c : Char) (stack cs : List Char), mapping c = none →
      BalStack (c :: stack) cs → BalStack stack (c :: cs)
  | pop : ∀ (c o : Char) (stack cs : List Char), mapping c = some o →
      BalStack stack cs → BalStack (o :: stack) (c :: cs)

/-- `Closes stack cs`: the input `cs` consists of a balanced block, then a
closer for each pending opener on `stack` (interleaved with further balanced
blocks). -/
def Closes : List Char → List Char → Prop
  | [], cs => Balanced cs
  | o :: st, cs => ∃ b c rest, Balanced b ∧ mapping c = some o ∧
      cs = b ++ c :: rest ∧ Closes st rest

lemma mapping_cases {c o : Char} (h : mapping c = some o) :
    o = '(' ∨ o = '[' ∨ o = '{' := by
  unfold mapping at h
  split at h
  · exact Or.inl (Option.some.inj h).symm
  · split at h
    · exact Or.inr (Or.inl (Option.some.inj h).symm)
    · split at h
      · exact Or.inr (Or.inr (Option.some.inj h).symm)
      · cases h

lemma mapping_opener {c o : Char} (h : mapping c = some o) : mapping o = none := by
  rcases mapping_cases h with rfl | rfl | rfl <;> rfl

lemma isValidGo_cons_open {c : Char} (hm : mapping c = none) (stack rest : List Char) :
    isValidGo stack (c :: rest) = isValidGo (c :: stack) rest := by
  show (match mapping c with
    | some o =>
      match stack with
      | [] => false
      | t :: stack2 => if t ≠ o then false else isValidGo stack2 rest
    | none => isValidGo (c :: stack) rest) = _
  rw [hm]

lemma isValidGo_close_nil {c o : Char} (hm : mapping c = some o) (rest : List Char) :
    isValidGo [] (c :: rest) = false := by
  show (match mapping c with
    | some o => match ([] : List Char) with
      | [] => false
      | t :: stack2 => if t ≠ o then false else isValidGo stack2 rest
    | none => isValidGo [c] rest) = _
  rw [hm]

lemma isValidGo_close_cons {c o : Char} (hm : mapping c = some o)
    (t : Char) (st rest : List Char) :
    isValidGo (t :: st) (c :: rest) = if t = o then isValidGo st rest else false := by
  show (match mapping c with
    | some o => match t :: st with
      | [] => false
      | t :: stack2 => if t ≠ o then false else isValidGo stack2 rest
    | none => isValidGo (c :: t :: st) rest) = _
  rw [hm]
  by_cases h : t = o <;> simp [h]

lemma closes_prepend {b : List Char} (hb : Balanced b) :
    ∀ {stack cs : List Char}, Closes stack cs → Closes stack (b ++ cs) := by
  intro stack cs h
  match stack with
  | [] => exact Balanced.append b cs hb h
  | o :: st =>
    obtain ⟨b2, c2, rest2, hb2, hm2, hcs, hcl⟩ := h
    exact ⟨b ++ b2, c2, rest2, Balanced.append b b2 hb hb2, hm2,
      by rw [hcs, List.append_assoc], hcl⟩

lemma balStack_closes {stack cs : List Char} (h : BalStack stack cs) :
    Closes stack cs := by
  induction h with
  | done => exact Balanced.nil
  | push c stack' cs' hm _ ih =>
    obtain ⟨b, c', rest, hb, hm', hcs, hcl⟩ := ih
    have hw : Balanced (c :: b ++ [c']) := Balanced.wrap c c' b hm' hb
    have heq : c :: cs' = (c :: b ++ [c']) ++ rest := by
      rw [hcs]
      simp
    rw [heq]
    exact closes_prepend hw hcl
  | pop c o stack' cs' hm _ ih =>
    exact ⟨[], c, cs', Balanced.nil, hm, rfl, ih⟩

lemma balStack_prepend {b : List Char} (hb : Balanced b) :
    ∀ {stack rest : List Char}, BalStack stack rest → BalStack stack (b ++ rest) := by
  induction hb with
  | nil => intro _ _ h; exact h
  | wrap o c s hm _ ih =>
    intro stack rest h
    have heq : (o :: s ++ [c]) ++ rest = o :: (s ++ c :: rest) := by simp
    rw [heq]
    exact BalStack.push o stack _ (mapping_opener hm)
      (ih (BalStack.pop c o stack rest hm h))
  | append s t _ _ ih1 ih2 =>
    intro stack rest h
    rw [List.append_assoc]
    exact ih1 (ih2 h)

lemma closes_balStack : ∀ {stack cs : List Char}, Closes stack cs → BalStack stack cs := by
  intro stack
  induction stack with
  | nil =>
    intro cs h
    simpa using balStack_prepend h BalStack.done
  | cons o st ih =>
    intro cs h
    obtain ⟨b, c, rest, hb, hm, hcs, hcl⟩ := h
    subst hcs
    exact balStack_prepend hb (BalStack.pop c o st rest hm (ih hcl))

lemma isValidGo_iff_balStack : ∀ (cs stack : List Char),
    isValidGo stack cs = true ↔ BalStack stack cs := by
  intro cs
  induction cs with
  | nil =>
    intro stack
    match stack with
    | [] =>
      simp only [isValidGo, List.isEmpty_nil, true_iff]
      exact BalStack.done
    | t :: st =>
      simp only [isValidGo, List.isEmpty_cons, Bool.false_eq_true, false_iff]
      intro h
      cases h
  | cons c rest ih =>
    intro stack
    rcases hm : mapping c with _ | o
    · rw [isValidGo_cons_open hm, ih (c :: stack)]
      constructor
      · exact fun h => BalStack.push c stack rest hm h
      · intro h
        cases h with
        | push _ _ _ _ h2 => exact h2
        | pop _ _ _ _ hm2 _ => rw [hm] at hm2; cases hm2
    · match stack with
      | [] =>
        rw [isValidGo_close_nil hm]
        simp only [Bool.false_eq_true, false_iff]
        intro h
        cases h with
        | push _ _ _ hm2 _ => rw [hm] at hm2; cases hm2
      | t :: st =>
        rw [isValidGo_close_cons hm]
        by_cases hto : t = o
        · subst hto
          rw [if_pos rfl, ih st]
          constructor
          · exact fun h => BalStack.pop c t st rest hm h
          · intro h
            cases h with
            | push _ _ _ hm2 _ => rw [hm] at hm2; cases hm2
            | pop _ _ _ _ hm2 h2 =>
              rw [hm] at hm2
              cases hm2
              exact h2
        · rw [if_neg hto]
          simp only [Bool.false_eq_true, false_iff]
          intro h
          cases h with
          | push _ _ _ hm2 _ => rw [hm] at hm2; cases hm2
          | pop _ _ _ _ hm2 _ => rw [hm] at hm2; cases hm2; exact hto rfl

/-- C2: `isValid` accepts exactly the balanced bracket strings (each closing
bracket matches the most recently pushed unmatched opening bracket and no
unmatched opener remains), and in particular accepts `"()[]{}"` and `""` and
rejects `"(]"` and `"([)]"`. -/
theorem isValid_correct :
    (∀ s : List Char, isValid s = true ↔ Balanced s) ∧
    isValid "()[]{}".toList = true ∧ isValid "(]".toList = false ∧
    isValid "([)]".toList = false ∧ isValid "".toList = true := by
  refine ⟨fun s => ?_, by decide, by decide, by decide, by decide⟩
  rw [isValid, isValidGo_iff_balStack s []]
  exact ⟨fun h => balStack_closes h, fun h => closes_balStack h⟩

/-! ## Two sum (`twoSum.py`, `PatternSkeletons/HashMap.py`)

```python
def twoSum(nums, target):
    seen = {}
    for i, num in enumerate(nums):
        complement = target - num
        if complement in seen:
            return [seen[complement], i]
        seen[num] = i
```

The dictionary `seen` (value -> most recent index) is embedded as a function
`Int -> Option Nat`; `seen[num] = i` is a pointwise update.  Falling off the
end of the loop returns Python `None`, i.e. `Option.none`.
-/

def twoSumGo (target : Int) (seen : Int → Option Nat) (i : Nat) : List Int → Option (Nat × Nat)
  | [] => none
  | num :: rest =>
    match seen (target - num) with
    | some j => some (j, i)
    | none => twoSumGo target (fun v => if v = num then some i else seen v) (i + 1) rest

def twoSum (nums : List Int) (target : Int) : Option (Nat × Nat) :=
  twoSumGo target (fun _ => none) 0 nums


lemma twoSumGo_found {target num : Int} {seen : Int → Option Nat} {i j : Nat}
    (rest : List Int) (hsv : seen (target - num) = some j) :
    twoSumGo target seen i (num :: rest) = some (j, i) := by
  show (match seen (target - num) with
    | some j => some (j, i)
    | none => twoSumGo target (fun v => if v = num then some i else seen v) (i + 1) rest) = _
  rw [hsv]

lemma twoSumGo_notfound {target num : Int} {seen : Int → Option Nat} {i : Nat}
    (rest : List Int) (hsv : seen (target - num) = none) :
    twoSumGo target seen i (num :: rest) =
      twoSumGo target (fun v => if v = num then some i else seen v) (i + 1) rest := by
  show (match seen (target - num) with
    | some j => some (j, i)
    | none => twoSumGo target (fun v => if v = num then some i else seen v) (i + 1) rest) = _
  rw [hsv]

/-- `seen` holds exactly the value-to-most-recent-index map of the first `i`
elements. -/
def SeenInv (nums : List Int) (i : Nat) (seen : Int → Option Nat) : Prop :=
  ∀ v j, seen v = some j ↔
    (j < i ∧ nums.getD j 0 = v ∧ ∀ k, j < k → k < i → nums.getD k 0 ≠ v)

lemma seen_none_no_occ {nums : List Int} {i : Nat} {seen : Int → Option Nat}
    (hseen : SeenInv nums i seen) {v : Int} (hnone : seen v = none) :
    ∀ a, a < i → nums.getD a 0 ≠ v := by
  intro a ha hv
  have hle : Nat.findGreatest (fun k => nums.getD k 0 = v) (i - 1) ≤ i - 1 :=
    Nat.findGreatest_le _
  have hsome : seen v = some (Nat.findGreatest (fun k => nums.getD k 0 = v) (i - 1)) := by
    rw [hseen]
    refine ⟨by omega,
      Nat.findGreatest_spec (P := fun k => nums.getD k 0 = v) (m := a) (by omega) hv,
      fun k h1 h2 => ?_⟩
    exact Nat.findGreatest_is_greatest h1 (by omega)
  rw [hnone] at hsome
  cases hsome

lemma twoSumGo_spec (nums : List Int) (target : Int) :
    ∀ (rest : List Int) (i : Nat) (seen : Int → Option Nat),
    rest = nums.drop i → i ≤ nums.length → SeenInv nums i seen →
    (∀ a b, a < b → b < i → nums.getD a 0 + nums.getD b 0 ≠ target) →
    (∀ p : Nat × Nat, twoSumGo target seen i rest = some p →
      (p.1 < p.2 ∧ p.2 < nums.length ∧
        nums.getD p.1 0 + nums.getD p.2 0 = target ∧
        (∀ a b, a < b → b < p.2 → nums.getD a 0 + nums.getD b 0 ≠ target) ∧
        (∀ k, p.1 < k → k < p.2 → nums.getD k 0 ≠ target - nums.getD p.2 0))) ∧
    (twoSumGo target seen i rest = none →
      ∀ a b, a < b → b < nums.length → nums.getD a 0 + nums.getD b 0 ≠ target) := by
  intro rest
  induction rest with
  | nil =>
    intro i seen hrest hi hseen hnopair
    have hlen : nums.length ≤ i := by
      by_contra h
      push_neg at h
      have hd := List.drop_eq_getElem_cons h
      rw [← hrest] at hd
      cases hd
    constructor
    · intro p hp
      cases hp
    · intro _ a b hab hb
      exact hnopair a b hab (by omega)
  | cons num rest' ih =>
    intro i seen hrest hi hseen hnopair
    have hilen : i < nums.length := by
      by_contra h
      push_neg at h
      rw [List.drop_eq_nil_of_le h] at hrest
      cases hrest
    have hd := List.drop_eq_getElem_cons hilen
    rw [← hrest] at hd
    have hnum : nums.getD i 0 = num := by
      rw [List.getD_eq_getElem _ _ hilen, (List.cons.inj hd).1]
    have hrest' : rest' = nums.drop (i + 1) := (List.cons.inj hd).2
    rcases hsv : seen (target - num) with _ | j
    · -- complement not seen: loop advances
      rw [twoSumGo_notfound rest' hsv]
      have hseen' : SeenInv nums (i + 1) (fun v => if v = num then some i else seen v) := by
        intro v j
        by_cases hv : v = num
        · rw [hv]
          have hif : (fun w => if w = num then some i else seen w) num = some i := by simp
          rw [hif]
          constructor
          · intro h
            obtain rfl : i = j := Option.some.inj h
            exact ⟨by omega, hnum, fun k h1 h2 => by omega⟩
          · rintro ⟨h1, h2, h3⟩
            by_cases hji : j = i
            · rw [hji]
            · exact absurd hnum (h3 i (by omega) (by omega))
        · simp only [if_neg hv]
          rw [hseen]
          constructor
          · rintro ⟨h1, h2, h3⟩
            refine ⟨by omega, h2, fun k hk1 hk2 => ?_⟩
            by_cases hki : k = i
            · rw [hki, hnum]
              exact fun h => hv h.symm
            · exact h3 k hk1 (by omega)
          · rintro ⟨h1, h2, h3⟩
            have hji : j ≠ i := by
              intro hji
              rw [hji, hnum] at h2
              exact hv h2.symm
            exact ⟨by omega, h2, fun k hk1 hk2 => h3 k hk1 (by omega)⟩
      have hnopair' : ∀ a b, a < b → b < i + 1 →
          nums.getD a 0 + nums.getD b 0 ≠ target := by
        intro a b hab hb
        by_cases hbi : b = i
        · subst hbi
          intro hsum
          rw [hnum] at hsum
          have hva : nums.getD a 0 = target - num := by omega
          exact seen_none_no_occ hseen hsv a hab hva
        · exact hnopair a b hab (by omega)
      exact ih (i + 1) _ hrest' (by omega) hseen' hnopair'
    · -- complement found: return (j, i)
      rw [twoSumGo_found rest' hsv]
      have hj := (hseen (target - num) j).mp hsv
      constructor
      · intro p hp
        cases hp
        refine ⟨hj.1, hilen, ?_, fun a b hab hb => hnopair a b hab hb, ?_⟩
        · rw [hj.2.1, hnum]
          ring
        · intro k hk1 hk2
          rw [hnum]
          exact hj.2.2 k hk1 hk2
      · intro h
        cases h

/-- C3: when some pair of distinct indices sums to `target`, `twoSum` returns
such a pair in increasing index order, at the earliest possible second index,
with the first component the most recent earlier occurrence of the needed
complement; when no pair exists it produces no result. -/
theorem twoSum_correct (nums : List Int) (target : Int) :
    ((∃ a b, a < b ∧ b < nums.length ∧ nums.getD a 0 + nums.getD b 0 = target) →
      ∃ i j, twoSum nums target = some (i, j) ∧ i < j ∧ j < nums.length ∧
        nums.getD i 0 + nums.getD j 0 = target ∧
        (∀ a b, a < b → b < j → nums.getD a 0 + nums.getD b 0 ≠ target) ∧
        (∀ k, i < k → k < j → nums.getD k 0 ≠ target - nums.getD j 0)) ∧
    ((∀ a b, a < b → b < nums.length → nums.getD a 0 + nums.getD b 0 ≠ target) →
      twoSum nums target = none) := by
  have hinv : SeenInv nums 0 (fun _ => none) := by
    intro v j
    constructor
    · intro h
      cases h
    · rintro ⟨h1, _, _⟩
      omega
  have h := twoSumGo_spec nums target nums 0 (fun _ => none) rfl (by omega) hinv
    (fun a b _ hb => by omega)
  constructor
  · rintro ⟨a, b, hab, hb, hsum⟩
    rcases hres : twoSum nums target with _ | p
    · exact absurd hsum (h.2 hres a b hab hb)
    · obtain ⟨h1, h2, h3, h4, h5⟩ := h.1 p hres
      exact ⟨p.1, p.2, by rw [← hres], h1, h2, h3, h4, h5⟩
  · intro hnone
    rcases hres : twoSum nums target with _ | p
    · rfl
    · obtain ⟨h1, h2, h3, _, _⟩ := h.1 p hres
      exact absurd h3 (hnone p.1 p.2 h1 h2)

theorem twoSum_correct_witness :
    twoSum [2, 7, 11, 15] 9 = some (0, 1) ∧ twoSum [1, 2] 5 = none := by
  constructor
  · obtain ⟨i, j, hres, hij, hj, hsum, hmin, _⟩ :=
      (twoSum_correct [2, 7, 11, 15] 9).1 ⟨0, 1, by decide, by decide, by decide⟩
    have hj1 : j = 1 := by
      by_contra hne
      have h2j : 2 ≤ j := by omega
      exact hmin 0 1 (by decide) (by omega) (by decide)
    subst hj1
    have hi0 : i = 0 := by omega
    subst hi0
    exact hres
  · refine (twoSum_correct [1, 2] 5).2 ?_
    intro a b hab hb
    have hb2 : b < 2 := by simpa using hb
    obtain ⟨rfl, rfl⟩ : a = 0 ∧ b = 1 := by omega
    decide


/-! ## Sorted linked-list merge (`mergeTwoLists.py`)

```python
def mergeTwoLists(l1, l2):
    dummy = ListNode(0)
    tail = dummy
    while l1 and l2:
        if l1.val <= l2.val:
            tail.next = l1
            l1 = l1.next
        else:
            tail.next = l2
            l2 = l2.next
        tail = tail.next
    tail.next = l1 if l1 else l2
    return dummy.next
```

A finite acyclic `ListNode` chain is embedded as the `List Int` of its values;
attaching the smaller head and advancing is the recursive cons, and
`tail.next = l1 if l1 else l2` is the base case appending the remainder.
-/

def mergeTwoLists : List Int → List Int → List Int
  | [], l2 => l2
  | l1, [] => l1
  | a :: l1, b :: l2 =>
    if a ≤ b then a :: mergeTwoLists l1 (b :: l2)
    else b :: mergeTwoLists (a :: l1) l2


lemma mergeTwoLists_perm : ∀ (l1 l2 : List Int),
    (mergeTwoLists l1 l2).Perm (l1 ++ l2) := by
  intro l1
  induction l1 with
  | nil => intro l2; simp [mergeTwoLists]
  | cons a l1 ih1 =>
    intro l2
    induction l2 with
    | nil => simp [mergeTwoLists]
    | cons b l2 ih2 =>
      rw [mergeTwoLists]
      by_cases hab : a ≤ b
      · rw [if_pos hab]
        exact (ih1 (b :: l2)).cons a
      · rw [if_neg hab]
        refine List.Perm.trans (ih2.cons b) ?_
        have h1 : b :: (a :: l1 ++ l2) = [b] ++ (a :: l1) ++ l2 := by simp
        have h2 : a :: l1 ++ b :: l2 = (a :: l1) ++ [b] ++ l2 := by simp
        rw [h1, h2]
        exact (List.perm_append_comm.append_right l2)

lemma mergeTwoLists_mem : ∀ (l1 l2 : List Int) (x : Int),
    x ∈ mergeTwoLists l1 l2 ↔ x ∈ l1 ∨ x ∈ l2 := by
  intro l1 l2 x
  rw [(mergeTwoLists_perm l1 l2).mem_iff, List.mem_append]

lemma mergeTwoLists_sorted : ∀ (l1 l2 : List Int),
    l1.Sorted (· ≤ ·) → l2.Sorted (· ≤ ·) →
    (mergeTwoLists l1 l2).Sorted (· ≤ ·) := by
  intro l1
  induction l1 with
  | nil => intro l2 _ h2; simpa [mergeTwoLists] using h2
  | cons a l1 ih1 =>
    intro l2 h1 h2
    induction l2 with
    | nil => simpa [mergeTwoLists] using h1
    | cons b l2 ih2 =>
      rw [mergeTwoLists]
      rw [List.sorted_cons] at h1 h2
      by_cases hab : a ≤ b
      · rw [if_pos hab]
        rw [List.sorted_cons]
        refine ⟨?_, ih1 (b :: l2) h1.2 (List.sorted_cons.mpr h2)⟩
        intro x hx
        rcases (mergeTwoLists_mem l1 (b :: l2) x).mp hx with h | h
        · exact h1.1 x h
        · rcases List.mem_cons.mp h with rfl | h
          · exact hab
          · exact le_trans hab (h2.1 x h)
      · rw [if_neg hab]
        rw [List.sorted_cons]
        refine ⟨?_, ih2 h2.2⟩
        intro x hx
        rcases (mergeTwoLists_mem (a :: l1) l2 x).mp hx with h | h
        · rcases List.mem_cons.mp h with rfl | h
          · omega
          · exact le_trans (by omega) (h1.1 x h)
        · exact h2.1 x h

/-- C6: merging two lists sorted in non-decreasing order yields a sorted list
whose values are exactly the multiset union of the inputs. -/
theorem mergeTwoLists_correct (l1 l2 : List Int)
    (h1 : l1.Sorted (· ≤ ·)) (h2 : l2.Sorted (· ≤ ·)) :
    (mergeTwoLists l1 l2).Sorted (· ≤ ·) ∧
    (mergeTwoLists l1 l2).Perm (l1 ++ l2) :=
  ⟨mergeTwoLists_sorted l1 l2 h1 h2, mergeTwoLists_perm l1 l2⟩

/-- C6 witness: merging `[1,2,4]` and `[1,3,4]` yields `[1,1,2,3,4,4]`,
sorted and a permutation of the combined inputs. -/
theorem mergeTwoLists_correct_witness :
    mergeTwoLists [1, 2, 4] [1, 3, 4] = [1, 1, 2, 3, 4, 4] ∧
    (mergeTwoLists [1, 2, 4] [1, 3, 4]).Sorted (· ≤ ·) ∧
    (mergeTwoLists [1, 2, 4] [1, 3, 4]).Perm ([1, 2, 4] ++ [1, 3, 4]) :=
  ⟨by simp [mergeTwoLists], mergeTwoLists_correct [1, 2, 4] [1, 3, 4] (by decide) (by decide)⟩


/-! ## Duplicated definitions (C8)

`PatternSkeletons/HashMap.py` contains a verbatim copy of the `twoSum` loop;
it is embedded separately below.  `twoSum.py` lines 117-126 and 129-138
contain two dedented copies in which the complement check and the `seen`
update sit outside the `for` loop: after the loop only the final `num` is
compared against the still-empty `seen`, so no pair is ever returned, and on
an empty list the trailing code reads the unassigned loop variable
(`UnboundLocalError`, modelled as the outer `none`).
-/
def twoSumGo_hm (target : Int) (seen : Int → Option Nat) (i : Nat) : List Int → Option (Nat × Nat)
  | [] => none
  | num :: rest =>
    match seen (target - num) with
    | some j => some (j, i)
    | none => twoSumGo_hm target (fun v => if v = num then some i else seen v) (i + 1) rest

def twoSum_hm (nums : List Int) (target : Int) : Option (Nat × Nat) :=
  twoSumGo_hm target (fun _ => none) 0 nums

def twoSum_dedent (nums : List Int) (target : Int) : Option (Option (Nat × Nat)) :=
  match nums.getLast? with
  | none => none
  | some num =>
    let complement := target - num
    let seen : Int → Option Nat := fun _ => none
    match seen complement with
    | some j => some (some (j, nums.length - 1))
    | none => some none

lemma mapping_st_eq (c : Char) : mapping_st c = mapping c := by
  unfold mapping mapping_st
  by_cases h1 : c = ')'
  · simp [h1]
  · by_cases h2 : c = ']' <;> by_cases h3 : c = '}' <;> simp_all

lemma twoSumGo_hm_eq (target : Int) :
    ∀ (rest : List Int) (seen : Int → Option Nat) (i : Nat),
    twoSumGo_hm target seen i rest = twoSumGo target seen i rest := by
  intro rest
  induction rest with
  | nil => intro seen i; rfl
  | cons num rest' ih =>
    intro seen i
    show (match seen (target - num) with
      | some j => some (j, i)
      | none => twoSumGo_hm target (fun v => if v = num then some i else seen v) (i + 1) rest') =
      (match seen (target - num) with
      | some j => some (j, i)
      | none => twoSumGo target (fun v => if v = num then some i else seen v) (i + 1) rest')
    rcases seen (target - num) with _ | j
    · exact ih _ _
    · rfl

lemma isValidGo_st_eq : ∀ (cs stack : List Char),
    isValidGo_st stack cs = isValidGo stack cs := by
  intro cs
  induction cs with
  | nil => intro stack; rfl
  | cons c rest ih =>
    intro stack
    show (match mapping_st c with
      | some o =>
        match stack with
        | [] => false
        | t :: stack2 => if t ≠ o then false else isValidGo_st stack2 rest
      | none => isValidGo_st (c :: stack) rest) =
      (match mapping c with
      | some o =>
        match stack with
        | [] => false
        | t :: stack2 => if t ≠ o then false else isValidGo stack2 rest
      | none => isValidGo (c :: stack) rest)
    rw [mapping_st_eq]
    rcases mapping c with _ | o
    · exact ih _
    · rcases stack with _ | ⟨t, st⟩
      · rfl
      · by_cases h : t = o <;> simp [h, ih]

/-- C8 (amended): the complete duplicated definitions agree — the
`HashMap.py` copy of `twoSum` computes exactly what the `twoSum.py`
definition computes, and the `Stacks.py` copy of `isValid` (with its
reordered bracket dictionary and split early returns) computes exactly what
the `validParenthesis(isValid).py` definition computes. -/
theorem duplicate_defs_agree :
    (∀ (nums : List Int) (target : Int), twoSum_hm nums target = twoSum nums target) ∧
    (∀ s : List Char, isValid_st s = isValid s) :=
  ⟨fun nums target => twoSumGo_hm_eq target nums _ 0,
   fun s => isValidGo_st_eq s []⟩

/-- C8 counterexample: the claim fails for the duplicates it names.  The
placeholder `isValid` at `validParenthesis(isValid).py:32-38` answers `True`
on `"("` where the full definition answers `False`, and the dedented
`twoSum` at `twoSum.py:129-138` returns Python `None` on `([1,2], 3)` where
the full definition returns the pair `[0, 1]`. -/
theorem duplicate_defs_counterexample :
    isValid ['('] = false ∧ isValid_blank ['('] = true ∧
    twoSum [1, 2] 3 = some (0, 1) ∧ twoSum_dedent [1, 2] 3 = some none := by
  refine ⟨by decide, by decide, by decide, by decide⟩


/-! ## Reverse string (`PatternSkeletons/twoPointers.py`, `PatternSkeletons/Stacks.py`)

```python
def reverseString(s):
    chars = list(s)
    left = 0
    right = len(chars) - 1
    while left < right:
        chars[left], chars[right] = chars[right], chars[left]
        left += 1
        right -= 1
    return "".join(chars)
```

The two-pointer swap loop is embedded over `List Char` with `List.set`; for
the empty string Python computes `right = -1` and the `0 < -1` guard fails
exactly as the Nat guard `0 < 0` does here.  The `Stacks.py` variant pushes
every character and pops the stack into the result list.
-/

def swapLoop (cs : List Char) (left right : Nat) : List Char :=
  if left < right then
    swapLoop ((cs.set left (cs.getD right ' ')).set right (cs.getD left ' '))
      (left + 1) (right - 1)
  else cs
termination_by right - left
decreasing_by
  simp_wf
  omega

def reverseString (s : List Char) : List Char := swapLoop s 0 (s.length - 1)


theorem swapLoop_eq_reverse_segment (cs : List Char) (l r : Nat)
    (hlr : l ≤ r + 1) (hr : r < cs.length) :
    swapLoop cs l r =
      cs.take l ++ ((cs.drop l).take (r + 1 - l)).reverse ++ cs.drop (r + 1) := by
  by_cases h : l < r
  · rw [swapLoop, if_pos h]
    have hl : l < cs.length := by omega
    set xr := cs.getD r ' ' with hxr
    set xl := cs.getD l ' ' with hxl
    set cs' := (cs.set l xr).set r xl with hcs'
    have hlen' : cs'.length = cs.length := by
      rw [hcs', List.length_set, List.length_set]
    have ih := swapLoop_eq_reverse_segment cs' (l + 1) (r - 1)
      (by omega) (by omega)
    have e1 : cs'.take (l + 1) = cs.take l ++ [xr] := by
      rw [hcs', List.set_take, List.set_eq_of_length_le
        (by rw [List.length_take, List.length_set]; omega)]
      rw [List.set_take]
      rw [List.set_eq_take_append_cons_drop,
        if_pos (by rw [List.length_take]; omega)]
      rw [List.take_take, List.drop_take]
      congr 1
      · congr 1
        omega
      · simp
    have e2 : cs'.drop (l + 1) = (cs.drop (l + 1)).set (r - (l + 1)) xl := by
      rw [hcs', List.drop_set, if_neg (by omega), List.drop_set, if_pos (by omega)]
    have e3 : (cs'.drop (l + 1)).take (r - 1 + 1 - (l + 1)) =
        (cs.drop (l + 1)).take (r - l - 1) := by
      rw [e2, List.set_take, List.set_eq_of_length_le
        (by rw [List.length_take]; omega)]
      congr 1
      omega
    have e4 : cs'.drop (r - 1 + 1) = xl :: cs.drop (r + 1) := by
      have : r - 1 + 1 = r := by omega
      rw [this, hcs', List.drop_set, if_neg (by omega), List.drop_set,
        if_pos (by omega)]
      rw [List.drop_eq_getElem_cons hr]
      show (cs[r] :: cs.drop (r + 1)).set (r - r) xl = _
      have : r - r = 0 := by omega
      rw [this]
      rfl
    have e5 : (cs.drop l).take (r + 1 - l) =
        xl :: ((cs.drop (l + 1)).take (r - l - 1) ++ [xr]) := by
      rw [List.drop_eq_getElem_cons hl]
      have h1 : r + 1 - l = (r - l - 1 + 1) + 1 := by omega
      rw [h1]
      show _ :: List.take (r - l - 1 + 1) (cs.drop (l + 1)) = _
      congr 1
      · rw [hxl, List.getD_eq_getElem _ _ hl]
      · rw [List.take_succ]
        congr 1
        have hb : r - l - 1 < (cs.drop (l + 1)).length := by
          rw [List.length_drop]
          omega
        rw [List.getElem?_eq_getElem hb]
        show [(cs.drop (l+1))[r - l - 1]] = [xr]
        congr 1
        rw [List.getElem_drop]
        rw [hxr, List.getD_eq_getElem _ _ hr]
        congr 1
        omega
    rw [ih, e1, e3, e4, e5]
    simp only [List.reverse_cons, List.reverse_append, List.reverse_cons,
      List.reverse_nil, List.nil_append, List.append_assoc, List.cons_append,
      List.singleton_append]
  · rw [swapLoop, if_neg h]
    rcases Nat.lt_or_ge l (r + 1) with h1 | h1
    · -- l = r
      have hlr2 : l = r := by omega
      subst hlr2
      rw [show l + 1 - l = 1 by omega]
      rw [List.take_one]
      rcases List.drop_eq_getElem_cons (by omega : l < cs.length) with hd
      rw [hd]
      show cs = cs.take l ++ [cs[l]].reverse ++ cs.drop (l + 1)
      rw [List.reverse_singleton]
      rw [List.append_assoc, List.singleton_append, ← List.drop_eq_getElem_cons]
      exact (List.take_append_drop l cs).symm
    · -- l = r + 1
      have hlr2 : l = r + 1 := by omega
      subst hlr2
      rw [show r + 1 - (r + 1) = 0 by omega]
      simp
termination_by r - l
decreasing_by
  simp_wf
  omega

theorem reverseString_eq_reverse (s : List Char) : reverseString s = s.reverse := by
  rcases s with _ | ⟨c, cs⟩
  · simp [reverseString, swapLoop]
  · rw [reverseString]
    have hlen : (c :: cs).length - 1 < (c :: cs).length := by simp
    rw [swapLoop_eq_reverse_segment (c :: cs) 0 ((c :: cs).length - 1) (by omega) hlen]
    simp



def pushAll (stack : List Char) : List Char → List Char
  | [] => stack
  | c :: rest => pushAll (c :: stack) rest

def popAll (result : List Char) : List Char → List Char
  | [] => result
  | c :: st => popAll (result ++ [c]) st

def reverseString_stack (s : List Char) : List Char := popAll [] (pushAll [] s)

lemma pushAll_eq : ∀ (s stack : List Char), pushAll stack s = s.reverse ++ stack := by
  intro s
  induction s with
  | nil => intro stack; rfl
  | cons c rest ih =>
    intro stack
    show pushAll (c :: stack) rest = _
    rw [ih]
    simp

lemma popAll_eq : ∀ (stack result : List Char), popAll result stack = result ++ stack := by
  intro stack
  induction stack with
  | nil => intro result; simp [popAll]
  | cons c st ih =>
    intro result
    show popAll (result ++ [c]) st = _
    rw [ih]
    simp

lemma reverseString_stack_eq_reverse (s : List Char) :
    reverseString_stack s = s.reverse := by
  rw [reverseString_stack, pushAll_eq, popAll_eq]
  simp

/-- C9: applying the reversal twice returns the original sequence, both for
the two-pointer swap implementation and for the stack implementation. -/
theorem reverseString_twice_id :
    (∀ s : List Char, reverseString (reverseString s) = s) ∧
    (∀ s : List Char, reverseString_stack (reverseString_stack s) = s) :=
  ⟨fun s => by rw [reverseString_eq_reverse, reverseString_eq_reverse, List.reverse_reverse],
   fun s => by rw [reverseString_stack_eq_reverse, reverseString_stack_eq_reverse,
     List.reverse_reverse]⟩

/-! ## Longest subarray with sum at most target (`PatternSkeletons/twoPointers.py`)

```python
def longestSubarrayWithSumAtMostTarget(nums, target):
    left = 0
    window_sum = 0
    max_length = 0
    for right in range(len(nums)):
        window_sum += nums[right]
        while window_sum > target:
            window_sum -= nums[left]
            left += 1
        max_length = max(max_length, right - left + 1)
    return max_length
```

The inner `while` is `shrink`; `nums[left]` past the end raises `IndexError`
(`none`).  `max(max_length, right - left + 1)` is embedded as
`max maxLength (right + 1 - left)` over `Nat`: when `left > right + 1` the
Python candidate is negative and loses to the non-negative running maximum
exactly as the truncated `Nat` subtraction `0` does.
-/

/-- Sum of the window of `nums` from index `l` (inclusive) to `r`
(exclusive); the specification-side notion of the sum of a contiguous run. -/
def winSum (nums : List Int) (l r : Nat) : Int := ((nums.drop l).take (r - l)).sum

def shrink (nums : List Int) (target : Int) (windowSum : Int) (left : Nat) :
    Option (Int × Nat) :=
  if windowSum > target then
    if h : left < nums.length then
      shrink nums target (windowSum - nums[left]) (left + 1)
    else none
  else some (windowSum, left)
termination_by nums.length - left

def lswLoop (nums : List Int) (target : Int) (left : Nat) (windowSum : Int)
    (maxLength : Nat) (right : Nat) : Option Nat :=
  if h : right < nums.length then
    match shrink nums target (windowSum + nums[right]) left with
    | none => none
    | some (ws2, left2) =>
      lswLoop nums target left2 ws2 (max maxLength (right + 1 - left2)) (right + 1)
  else some maxLength
termination_by nums.length - right

def longestSubarrayWithSumAtMostTarget (nums : List Int) (target : Int) : Option Nat :=
  lswLoop nums target 0 0 0 0


lemma winSum_nil (nums : List Int) (l r : Nat) (h : r ≤ l) : winSum nums l r = 0 := by
  rw [winSum, show r - l = 0 by omega]
  simp

lemma winSum_extend (nums : List Int) (l r : Nat) (hlr : l ≤ r) (hr : r < nums.length) :
    winSum nums l (r + 1) = winSum nums l r + nums.getD r 0 := by
  rw [winSum, winSum, show r + 1 - l = (r - l) + 1 by omega, List.take_succ]
  have hb : r - l < (nums.drop l).length := by
    rw [List.length_drop]
    omega
  rw [List.getElem?_eq_getElem hb]
  rw [List.sum_append]
  congr 1
  simp only [Option.toList_some, List.sum_cons, List.sum_nil, add_zero,
    List.getElem_drop]
  rw [List.getD_eq_getElem _ _ hr]
  congr 1
  omega

lemma winSum_cons (nums : List Int) (l r : Nat) (hlr : l < r) (hr : r ≤ nums.length) :
    winSum nums l r = nums.getD l 0 + winSum nums (l + 1) r := by
  have hl : l < nums.length := by omega
  rw [winSum, winSum, List.drop_eq_getElem_cons hl,
    show r - l = (r - (l + 1)) + 1 by omega]
  rw [List.take_succ_cons]
  rw [List.sum_cons]
  congr 1
  rw [List.getD_eq_getElem _ _ hl]


lemma getD_nonneg {nums : List Int} (hN : ∀ x ∈ nums, 0 ≤ x) {i : Nat}
    (h : i < nums.length) : 0 ≤ nums.getD i 0 := by
  rw [List.getD_eq_getElem _ _ h]
  exact hN _ (List.getElem_mem h)

lemma shrink_stop {nums : List Int} {target windowSum : Int} {left : Nat}
    (h : ¬ windowSum > target) :
    shrink nums target windowSum left = some (windowSum, left) := by
  rw [shrink, if_neg h]

lemma shrink_step {nums : List Int} {target windowSum : Int} {left : Nat}
    (h : windowSum > target) (hl : left < nums.length) :
    shrink nums target windowSum left =
      shrink nums target (windowSum - nums.getD left 0) (left + 1) := by
  rw [shrink, if_pos h, dif_pos hl, List.getD_eq_getElem _ _ hl]

theorem shrink_spec (nums : List Int) (target : Int) (hN : ∀ x ∈ nums, 0 ≤ x)
    (ht : 0 ≤ target) (r : Nat) (hr : r < nums.length)
    (l : Nat) (ws : Int) (hl : l ≤ r + 1) (hws : ws = winSum nums l (r + 1))
    (hmin : ∀ m, m < l → winSum nums m (r + 1) > target) :
    ∃ ws2 l2, shrink nums target ws l = some (ws2, l2) ∧
      ws2 = winSum nums l2 (r + 1) ∧ l2 ≤ r + 1 ∧ ws2 ≤ target ∧
      (∀ m, m < l2 → winSum nums m (r + 1) > target) := by
  by_cases hgt : ws > target
  · have hlr : l < r + 1 := by
      by_contra hc
      push_neg at hc
      have hws0 : ws = 0 := by
        rw [hws, winSum_nil nums _ _ (by omega)]
      omega
    have hl2 : l < nums.length := by omega
    rw [shrink_step hgt hl2]
    have hws' : ws - nums.getD l 0 = winSum nums (l + 1) (r + 1) := by
      rw [hws, winSum_cons nums l (r + 1) (by omega) (by omega)]
      ring
    have hmin' : ∀ m, m < l + 1 → winSum nums m (r + 1) > target := by
      intro m hm
      by_cases hml : m = l
      · rw [hml, ← hws]
        exact hgt
      · exact hmin m (by omega)
    exact shrink_spec nums target hN ht r hr (l + 1) _ (by omega) hws' hmin'
  · rw [shrink_stop hgt]
    exact ⟨ws, l, rfl, hws, hl, by omega, hmin⟩
termination_by nums.length - l
decreasing_by
  simp_wf
  omega

lemma lswLoop_stop {nums : List Int} {target ws : Int} {left m right : Nat}
    (h : ¬ right < nums.length) :
    lswLoop nums target left ws m right = some m := by
  rw [lswLoop, dif_neg h]

lemma lswLoop_step {nums : List Int} {target ws : Int} {left m right : Nat}
    (h : right < nums.length) :
    lswLoop nums target left ws m right =
      match shrink nums target (ws + nums.getD right 0) left with
      | none => none
      | some (ws2, left2) =>
        lswLoop nums target left2 ws2 (max m (right + 1 - left2)) (right + 1) := by
  rw [lswLoop, dif_pos h, List.getD_eq_getElem _ _ h]

theorem lswLoop_spec (nums : List Int) (target : Int) (hN : ∀ x ∈ nums, 0 ≤ x)
    (ht : 0 ≤ target) (right left : Nat) (ws : Int) (maxLength : Nat)
    (hrlen : right ≤ nums.length) (hlr : left ≤ right)
    (hws : ws = winSum nums left right) (_hwt : ws ≤ target)
    (hmin : ∀ m, m < left → winSum nums m right > target)
    (hbest1 : ∃ i, i + maxLength ≤ right ∧ winSum nums i (i + maxLength) ≤ target)
    (hbest2 : ∀ i n, i + n ≤ right → winSum nums i (i + n) ≤ target → n ≤ maxLength) :
    ∃ res, lswLoop nums target left ws maxLength right = some res ∧
      (∃ i, i + res ≤ nums.length ∧ winSum nums i (i + res) ≤ target) ∧
      (∀ i n, i + n ≤ nums.length → winSum nums i (i + n) ≤ target → n ≤ res) := by
  by_cases h : right < nums.length
  · rw [lswLoop_step h]
    have hws' : ws + nums.getD right 0 = winSum nums left (right + 1) := by
      rw [hws, winSum_extend nums left right hlr h]
    have hmin' : ∀ m, m < left → winSum nums m (right + 1) > target := by
      intro m hm
      rw [winSum_extend nums m right (by omega) h]
      have h0 : 0 ≤ nums.getD right 0 := getD_nonneg hN h
      have := hmin m hm
      omega
    obtain ⟨ws2, l2, hs, hws2, hl2, hwt2, hmin2⟩ :=
      shrink_spec nums target hN ht right h left (ws + nums.getD right 0)
        (by omega) hws' hmin'
    rw [hs]
    have hbest1' : ∃ i, i + max maxLength (right + 1 - l2) ≤ right + 1 ∧
        winSum nums i (i + max maxLength (right + 1 - l2)) ≤ target := by
      rcases Nat.le_total (right + 1 - l2) maxLength with hc | hc
      · rw [Nat.max_eq_left hc]
        obtain ⟨i, hi1, hi2⟩ := hbest1
        exact ⟨i, by omega, hi2⟩
      · rw [Nat.max_eq_right hc]
        refine ⟨l2, by omega, ?_⟩
        rw [show l2 + (right + 1 - l2) = right + 1 by omega, ← hws2]
        exact hwt2
    have hbest2' : ∀ i n, i + n ≤ right + 1 → winSum nums i (i + n) ≤ target →
        n ≤ max maxLength (right + 1 - l2) := by
      intro i n hin hsum
      rcases Nat.lt_or_ge (i + n) (right + 1) with hc | hc
      · exact le_trans (hbest2 i n (by omega) hsum) (Nat.le_max_left _ _)
      · have hin2 : i + n = right + 1 := by omega
        rcases Nat.eq_zero_or_pos n with rfl | hn
        · omega
        · have hi_ge : l2 ≤ i := by
            by_contra hc2
            push_neg at hc2
            have hgt2 := hmin2 i hc2
            rw [hin2] at hsum
            omega
          have hn2 : n ≤ right + 1 - l2 := by omega
          exact le_trans hn2 (Nat.le_max_right _ _)
    exact lswLoop_spec nums target hN ht (right + 1) l2 ws2 _ (by omega) hl2
      hws2 hwt2 hmin2 hbest1' hbest2'
  · rw [lswLoop_stop h]
    have hrl : right = nums.length := by omega
    subst hrl
    exact ⟨maxLength, rfl, hbest1, hbest2⟩
termination_by nums.length - right
decreasing_by
  simp_wf
  omega

/-- C5 (amended): for non-negative `nums` and non-negative `target`, the
sliding-window scan is defined and returns the maximum length of a contiguous
run whose sum is at most `target` (`0` when no non-empty run qualifies). -/
theorem lsw_amended (nums : List Int) (target : Int)
    (hN : ∀ x ∈ nums, 0 ≤ x) (ht : 0 ≤ target) :
    ∃ res, longestSubarrayWithSumAtMostTarget nums target = some res ∧
      (∃ i, i + res ≤ nums.length ∧ winSum nums i (i + res) ≤ target) ∧
      (∀ i n, i + n ≤ nums.length → winSum nums i (i + n) ≤ target → n ≤ res) := by
  have h0 : (0 : Int) = winSum nums 0 0 := by
    rw [winSum_nil nums 0 0 le_rfl]
  refine lswLoop_spec nums target hN ht 0 0 0 0 (by omega) le_rfl h0 ht
    (fun m hm => absurd hm (by omega)) ⟨0, by omega, ?_⟩
    (fun i n hin _ => by omega)
  rw [← h0]
  exact ht

/-- C5 counterexample: for the non-negative list `[0]` and `target = -1`
the claim fails — the shrink loop can never bring the non-negative window sum
below the negative target, walks `left` past the end of the list, and indexes
out of bounds (Python `IndexError`, modelled as `none`), so the function is
not defined there, let alone equal to `0`. -/
theorem lsw_counterexample :
    longestSubarrayWithSumAtMostTarget [0] (-1) = none := by
  simp [longestSubarrayWithSumAtMostTarget, lswLoop, shrink]

/-- C5 witness: on `[2,1,1,3]` with target `3` the amended theorem applies
and the returned length is the optimum over all windows. -/
theorem lsw_amended_witness :
    (∃ res, longestSubarrayWithSumAtMostTarget [2, 1, 1, 3] 3 = some res ∧
      (∃ i, i + res ≤ ([2, 1, 1, 3] : List Int).length ∧
        winSum [2, 1, 1, 3] i (i + res) ≤ 3) ∧
      (∀ i n, i + n ≤ ([2, 1, 1, 3] : List Int).length →
        winSum [2, 1, 1, 3] i (i + n) ≤ 3 → n ≤ res)) :=
  lsw_amended [2, 1, 1, 3] 3 (by decide) (by decide)


/-! ## Longest substring without repeating characters (`PatternSkeletons/HashMap.py`)

```python
def lengthOfLongestSubstring(s):
    last_seen = {}
    left = 0
    max_len = 0
    for right in range(len(s)):
        ch = s[right]
        if ch in last_seen and last_seen[ch] >= left:
            left = last_seen[ch] + 1
        last_seen[ch] = right
        max_len = max(max_len, right - left + 1)
    return max_len
```

The dictionary `last_seen` is a function `Char -> Option Nat`; the loop walks
the character list carrying the current index.  `right - left + 1` is
embedded as `idx + 1 - left` (in every reachable state `left ≤ idx`, so the
Nat subtraction is exact).
-/

def llsGo (idx : Nat) (last : Char → Option Nat) (left best : Nat) :
    List Char → Nat
  | [] => best
  | c :: rest =>
    let left2 := match last c with
      | some j => if left ≤ j then j + 1 else left
      | none => left
    llsGo (idx + 1) (fun d => if d = c then some idx else last d) left2
      (max best (idx + 1 - left2)) rest

def lengthOfLongestSubstring (s : List Char) : Nat :=
  llsGo 0 (fun _ => none) 0 0 s


section WindowLemmas

variable {s : List Char}

lemma window_succ {l r : Nat} (hl : l ≤ r) (hr : r < s.length) :
    (s.drop l).take (r + 1 - l) = (s.drop l).take (r - l) ++ [s.getD r ' '] := by
  rw [show r + 1 - l = (r - l) + 1 by omega, List.take_succ]
  have hb : r - l < (s.drop l).length := by
    rw [List.length_drop]
    omega
  rw [List.getElem?_eq_getElem hb]
  congr 1
  simp only [Option.toList_some, List.getElem_drop]
  rw [List.getD_eq_getElem _ _ hr]
  congr 2
  omega

lemma mem_window {a : Char} {l r : Nat} :
    a ∈ (s.drop l).take (r - l) ↔
      ∃ k, l ≤ k ∧ k < r ∧ k < s.length ∧ s.getD k ' ' = a := by
  rw [List.mem_iff_getElem]
  constructor
  · rintro ⟨i, hi, hget⟩
    rw [List.length_take, List.length_drop] at hi
    refine ⟨l + i, by omega, by omega, by omega, ?_⟩
    rw [List.getD_eq_getElem _ _ (by omega)]
    rw [List.getElem_take, List.getElem_drop] at hget
    exact hget
  · rintro ⟨k, hk1, hk2, hk3, hget⟩
    refine ⟨k - l, ?_, ?_⟩
    · rw [List.length_take, List.length_drop]
      omega
    · rw [List.getElem_take, List.getElem_drop]
      rw [List.getD_eq_getElem _ _ hk3] at hget
      have h2 : ∀ (m : Nat) (hm : m < s.length), m = k → s[m] = a := by
        intro m hm hmk
        subst hmk
        exact hget
      exact h2 _ (by omega) (by omega)

lemma window_nodup_succ {l r : Nat} (hl : l ≤ r) (hr : r < s.length) :
    ((s.drop l).take (r + 1 - l)).Nodup ↔
      ((s.drop l).take (r - l)).Nodup ∧
      (∀ k, l ≤ k → k < r → s.getD k ' ' ≠ s.getD r ' ') := by
  rw [window_succ hl hr]
  rw [List.nodup_append]
  simp only [List.nodup_singleton, true_and, List.disjoint_singleton]
  constructor
  · rintro ⟨h1, h2⟩
    refine ⟨h1, fun k hk1 hk2 hkr => h2 ?_⟩
    rw [mem_window]
    exact ⟨k, hk1, hk2, by omega, hkr⟩
  · rintro ⟨h1, h2⟩
    refine ⟨h1, fun hmem => ?_⟩
    rw [mem_window] at hmem
    obtain ⟨k, hk1, hk2, hk3, hkr⟩ := hmem
    exact h2 k hk1 hk2 hkr

lemma window_nodup_mono_left {l l' r : Nat} (hll : l ≤ l')
    (h : ((s.drop l).take (r - l)).Nodup) :
    ((s.drop l').take (r - l')).Nodup := by
  have heq : (s.drop l').take (r - l') =
      ((s.drop l).take (r - l)).drop (l' - l) := by
    rw [List.drop_take, List.drop_drop]
    congr 1
    · omega
    · congr 1
      omega
  rw [heq]
  exact h.sublist (List.drop_sublist _ _)

lemma window_nodup_mono_right {r r' l : Nat} (hrr : r ≤ r')
    (h : ((s.drop l).take (r' - l)).Nodup) :
    ((s.drop l).take (r - l)).Nodup := by
  have heq : (s.drop l).take (r - l) =
      ((s.drop l).take (r' - l)).take (r - l) := by
    rw [List.take_take]
    congr 1
    omega
  rw [heq]
  exact h.sublist (List.take_sublist _ _)

end WindowLemmas


/-- `last` holds exactly the character-to-most-recent-index map of the first
`idx` characters. -/
def LastInv (s : List Char) (idx : Nat) (last : Char → Option Nat) : Prop :=
  ∀ c j, last c = some j ↔
    (j < idx ∧ s.getD j ' ' = c ∧ ∀ k, j < k → k < idx → s.getD k ' ' ≠ c)

lemma last_none_no_occ {s : List Char} {idx : Nat} {last : Char → Option Nat}
    (hlast : LastInv s idx last) {c : Char} (hnone : last c = none) :
    ∀ a, a < idx → s.getD a ' ' ≠ c := by
  intro a ha hv
  have hle : Nat.findGreatest (fun k => s.getD k ' ' = c) (idx - 1) ≤ idx - 1 :=
    Nat.findGreatest_le _
  have hsome : last c = some (Nat.findGreatest (fun k => s.getD k ' ' = c) (idx - 1)) := by
    rw [hlast]
    refine ⟨by omega,
      Nat.findGreatest_spec (P := fun k => s.getD k ' ' = c) (m := a) (by omega) hv,
      fun k h1 h2 => ?_⟩
    exact Nat.findGreatest_is_greatest h1 (by omega)
  rw [hnone] at hsome
  cases hsome

lemma last_some_max {s : List Char} {idx : Nat} {last : Char → Option Nat}
    (hlast : LastInv s idx last) {c : Char} {j : Nat} (hsome : last c = some j) :
    ∀ k, k < idx → s.getD k ' ' = c → k ≤ j := by
  intro k hk hkc
  by_contra hc
  push_neg at hc
  exact ((hlast c j).mp hsome).2.2 k hc hk hkc

theorem llsGo_spec (s : List Char) :
    ∀ (cs : List Char) (idx : Nat) (last : Char → Option Nat) (left best : Nat),
    cs = s.drop idx → idx ≤ s.length → LastInv s idx last →
    left ≤ idx →
    ((s.drop left).take (idx - left)).Nodup →
    (∀ l, l < left → ¬ ((s.drop l).take (idx - l)).Nodup) →
    (∃ i, i + best ≤ idx ∧ ((s.drop i).take best).Nodup) →
    (∀ i n, i + n ≤ idx → ((s.drop i).take n).Nodup → n ≤ best) →
    (∃ i, i + llsGo idx last left best cs ≤ s.length ∧
       ((s.drop i).take (llsGo idx last left best cs)).Nodup) ∧
    (∀ i n, i + n ≤ s.length → ((s.drop i).take n).Nodup →
       n ≤ llsGo idx last left best cs) := by
  intro cs
  induction cs with
  | nil =>
    intro idx last left best hrest hidx hlast hleft hwin hminl hbest1 hbest2
    have hlen : s.length ≤ idx := by
      by_contra h
      push_neg at h
      have hd := List.drop_eq_getElem_cons h
      rw [← hrest] at hd
      cases hd
    show (∃ i, i + best ≤ s.length ∧ _) ∧ _
    constructor
    · obtain ⟨i, hi1, hi2⟩ := hbest1
      exact ⟨i, by omega, hi2⟩
    · intro i n hin hnd
      exact hbest2 i n (by omega) hnd
  | cons c rest ih =>
    intro idx last left best hrest hidx hlast hleft hwin hminl hbest1 hbest2
    have hilen : idx < s.length := by
      by_contra h
      push_neg at h
      rw [List.drop_eq_nil_of_le h] at hrest
      cases hrest
    have hd := List.drop_eq_getElem_cons hilen
    rw [← hrest] at hd
    have hc : s.getD idx ' ' = c := by
      rw [List.getD_eq_getElem _ _ hilen, (List.cons.inj hd).1]
    have hrest' : rest = s.drop (idx + 1) := (List.cons.inj hd).2
    -- the updated last-seen map
    have hlast' : LastInv s (idx + 1) (fun d => if d = c then some idx else last d) := by
      intro v j
      by_cases hv : v = c
      · rw [hv]
        have hif : (fun d => if d = c then some idx else last d) c = some idx := by simp
        rw [hif]
        constructor
        · intro h
          obtain rfl : idx = j := Option.some.inj h
          exact ⟨by omega, hc, fun k h1 h2 => by omega⟩
        · rintro ⟨h1, h2, h3⟩
          by_cases hji : j = idx
          · rw [hji]
          · exact absurd hc (h3 idx (by omega) (by omega))
      · have hif : (fun d => if d = c then some idx else last d) v = last v := by
          simp [hv]
        rw [hif, hlast]
        constructor
        · rintro ⟨h1, h2, h3⟩
          refine ⟨by omega, h2, fun k hk1 hk2 => ?_⟩
          by_cases hki : k = idx
          · rw [hki, hc]
            exact fun h => hv h.symm
          · exact h3 k hk1 (by omega)
        · rintro ⟨h1, h2, h3⟩
          have hji : j ≠ idx := by
            intro hji
            rw [hji, hc] at h2
            exact hv h2.symm
          exact ⟨by omega, h2, fun k hk1 hk2 => h3 k hk1 (by omega)⟩
    -- case split on the last occurrence of c
    rcases hlc : last c with _ | j
    · -- c unseen: left2 = left
      have hunfold : llsGo idx last left best (c :: rest) =
          llsGo (idx + 1) (fun d => if d = c then some idx else last d) left
            (max best (idx + 1 - left)) rest := by
        show llsGo (idx + 1) _ (match last c with
          | some j => if left ≤ j then j + 1 else left
          | none => left) _ rest = _
        rw [hlc]
      rw [hunfold]
      have hnocc : ∀ k, left ≤ k → k < idx → s.getD k ' ' ≠ s.getD idx ' ' := by
        intro k _ hk2
        rw [hc]
        exact last_none_no_occ hlast hlc k hk2
      have hwin' : ((s.drop left).take (idx + 1 - left)).Nodup :=
        (window_nodup_succ hleft hilen).mpr ⟨hwin, hnocc⟩
      have hminl' : ∀ l, l < left → ¬ ((s.drop l).take (idx + 1 - l)).Nodup := by
        intro l hl hnd
        exact hminl l hl (window_nodup_mono_right (by omega : idx ≤ idx + 1) hnd)
      have hbest1' : ∃ i, i + max best (idx + 1 - left) ≤ idx + 1 ∧
          ((s.drop i).take (max best (idx + 1 - left))).Nodup := by
        rcases Nat.le_total (idx + 1 - left) best with hcm | hcm
        · rw [Nat.max_eq_left hcm]
          obtain ⟨i, hi1, hi2⟩ := hbest1
          exact ⟨i, by omega, hi2⟩
        · rw [Nat.max_eq_right hcm]
          exact ⟨left, by omega, hwin'⟩
      have hbest2' : ∀ i n, i + n ≤ idx + 1 → ((s.drop i).take n).Nodup →
          n ≤ max best (idx + 1 - left) := by
        intro i n hin hnd
        rcases Nat.lt_or_ge (i + n) (idx + 1) with hcm | hcm
        · exact le_trans (hbest2 i n (by omega) hnd) (Nat.le_max_left _ _)
        · rcases Nat.eq_zero_or_pos n with rfl | hn
          · omega
          · have hi_ge : left ≤ i := by
              by_contra hc2
              push_neg at hc2
              refine hminl' i hc2 ?_
              rw [show idx + 1 - i = n by omega]
              exact hnd
            have : n ≤ idx + 1 - left := by omega
            exact le_trans this (Nat.le_max_right _ _)
      exact ih (idx + 1) _ left _ hrest' (by omega) hlast' (by omega) hwin' hminl'
        hbest1' hbest2'
    · have hj := (hlast c j).mp hlc
      by_cases hlj : left ≤ j
      · -- repeat inside the window: left2 = j + 1
        have hunfold : llsGo idx last left best (c :: rest) =
            llsGo (idx + 1) (fun d => if d = c then some idx else last d) (j + 1)
              (max best (idx + 1 - (j + 1))) rest := by
          show llsGo (idx + 1) _ (match last c with
            | some j => if left ≤ j then j + 1 else left
            | none => left) _ rest = _
          simp only [hlc]
          rw [if_pos hlj]
        rw [hunfold]
        have hnocc : ∀ k, j + 1 ≤ k → k < idx → s.getD k ' ' ≠ s.getD idx ' ' := by
          intro k hk1 hk2
          rw [hc]
          exact hj.2.2 k (by omega) hk2
        have hwinsub : ((s.drop (j + 1)).take (idx - (j + 1))).Nodup :=
          window_nodup_mono_left (by omega) hwin
        have hwin' : ((s.drop (j + 1)).take (idx + 1 - (j + 1))).Nodup :=
          (window_nodup_succ (by omega) hilen).mpr ⟨hwinsub, hnocc⟩
        have hminl' : ∀ l, l < j + 1 → ¬ ((s.drop l).take (idx + 1 - l)).Nodup := by
          intro l hl hnd
          have hnd2 := (window_nodup_succ (by omega : l ≤ idx) hilen).mp hnd
          exact hnd2.2 j (by omega) hj.1 (by rw [hj.2.1, hc])
        have hbest1' : ∃ i, i + max best (idx + 1 - (j + 1)) ≤ idx + 1 ∧
            ((s.drop i).take (max best (idx + 1 - (j + 1)))).Nodup := by
          rcases Nat.le_total (idx + 1 - (j + 1)) best with hcm | hcm
          · rw [Nat.max_eq_left hcm]
            obtain ⟨i, hi1, hi2⟩ := hbest1
            exact ⟨i, by omega, hi2⟩
          · rw [Nat.max_eq_right hcm]
            exact ⟨j + 1, by omega, hwin'⟩
        have hbest2' : ∀ i n, i + n ≤ idx + 1 → ((s.drop i).take n).Nodup →
            n ≤ max best (idx + 1 - (j + 1)) := by
          intro i n hin hnd
          rcases Nat.lt_or_ge (i + n) (idx + 1) with hcm | hcm
          · exact le_trans (hbest2 i n (by omega) hnd) (Nat.le_max_left _ _)
          · rcases Nat.eq_zero_or_pos n with rfl | hn
            · omega
            · have hi_ge : j + 1 ≤ i := by
                by_contra hc2
                push_neg at hc2
                refine hminl' i hc2 ?_
                rw [show idx + 1 - i = n by omega]
                exact hnd
              have : n ≤ idx + 1 - (j + 1) := by omega
              exact le_trans this (Nat.le_max_right _ _)
        exact ih (idx + 1) _ (j + 1) _ hrest' (by omega) hlast' (by omega) hwin'
          hminl' hbest1' hbest2'
      · -- previous occurrence before the window: left2 = left
        have hunfold : llsGo idx last left best (c :: rest) =
            llsGo (idx + 1) (fun d => if d = c then some idx else last d) left
              (max best (idx + 1 - left)) rest := by
          show llsGo (idx + 1) _ (match last c with
            | some j => if left ≤ j then j + 1 else left
            | none => left) _ rest = _
          simp only [hlc]
          rw [if_neg hlj]
        rw [hunfold]
        have hnocc : ∀ k, left ≤ k → k < idx → s.getD k ' ' ≠ s.getD idx ' ' := by
          intro k hk1 hk2
          rw [hc]
          intro hkc
          have := last_some_max hlast hlc k hk2 hkc
          omega
        have hwin' : ((s.drop left).take (idx + 1 - left)).Nodup :=
          (window_nodup_succ hleft hilen).mpr ⟨hwin, hnocc⟩
        have hminl' : ∀ l, l < left → ¬ ((s.drop l).take (idx + 1 - l)).Nodup := by
          intro l hl hnd
          exact hminl l hl (window_nodup_mono_right (by omega : idx ≤ idx + 1) hnd)
        have hbest1' : ∃ i, i + max best (idx + 1 - left) ≤ idx + 1 ∧
            ((s.drop i).take (max best (idx + 1 - left))).Nodup := by
          rcases Nat.le_total (idx + 1 - left) best with hcm | hcm
          · rw [Nat.max_eq_left hcm]
            obtain ⟨i, hi1, hi2⟩ := hbest1
            exact ⟨i, by omega, hi2⟩
          · rw [Nat.max_eq_right hcm]
            exact ⟨left, by omega, hwin'⟩
        have hbest2' : ∀ i n, i + n ≤ idx + 1 → ((s.drop i).take n).Nodup →
            n ≤ max best (idx + 1 - left) := by
          intro i n hin hnd
          rcases Nat.lt_or_ge (i + n) (idx + 1) with hcm | hcm
          · exact le_trans (hbest2 i n (by omega) hnd) (Nat.le_max_left _ _)
          · rcases Nat.eq_zero_or_pos n with rfl | hn
            · omega
            · have hi_ge : left ≤ i := by
                by_contra hc2
                push_neg at hc2
                refine hminl' i hc2 ?_
                rw [show idx + 1 - i = n by omega]
                exact hnd
              have : n ≤ idx + 1 - left := by omega
              exact le_trans this (Nat.le_max_right _ _)
        exact ih (idx + 1) _ left _ hrest' (by omega) hlast' (by omega) hwin'
          hminl' hbest1' hbest2'

/-- C4: `lengthOfLongestSubstring` returns the length of the longest
contiguous substring with no repeated character: some window of that length
is duplicate-free and every duplicate-free window is no longer; in particular
it returns `3` on `"abcabcbb"`, `1` on `"bbbbb"`, and `0` on `""`. -/
theorem lengthOfLongestSubstring_correct :
    (∀ s : List Char,
      (∃ i, i + lengthOfLongestSubstring s ≤ s.length ∧
        ((s.drop i).take (lengthOfLongestSubstring s)).Nodup) ∧
      (∀ i n, i + n ≤ s.length → ((s.drop i).take n).Nodup →
        n ≤ lengthOfLongestSubstring s)) ∧
    lengthOfLongestSubstring "abcabcbb".toList = 3 ∧
    lengthOfLongestSubstring "bbbbb".toList = 1 ∧
    lengthOfLongestSubstring "".toList = 0 := by
  refine ⟨fun s => ?_, by decide, by decide, by decide⟩
  have hlast : LastInv s 0 (fun _ => none) := by
    intro c j
    constructor
    · intro h
      cases h
    · rintro ⟨h1, _, _⟩
      omega
  exact llsGo_spec s s 0 (fun _ => none) 0 0 rfl (by omega) hlast le_rfl
    (by simp) (fun l hl => absurd hl (by omega)) ⟨0, by omega, by simp⟩
    (fun i n hin _ => by omega)


/-! ## Cycle detection (`hasCycle.py`)

```python
def hasCycle(head):
    slow = head
    fast = head
    while fast and fast.next:
        slow = slow.next
        fast = fast.next.next
        if slow == fast:
            return True
    return False
```

A finite heap of `ListNode`s is embedded as a node count `n`, a successor map
`next : Fin n -> Option (Fin n)` and an optional entry pointer; `ptr k` is
the node reached from `head` after `k` steps.  The loop runs on explicit
fuel; `hasCycle` supplies `n * n + 1` iterations and the correctness theorem
shows the fuel is never exhausted, which is exactly the termination argument
for the unbounded Python loop.
-/

def ptr (n : Nat) (next : Fin n → Option (Fin n)) (head : Option (Fin n)) :
    Nat → Option (Fin n)
  | 0 => head
  | k + 1 => (ptr n next head k).bind next

def floydLoop (n : Nat) (next : Fin n → Option (Fin n))
    (slow fast : Option (Fin n)) : Nat → Option Bool
  | 0 => none
  | fuel + 1 =>
    match fast with
    | none => some false
    | some f =>
      match next f with
      | none => some false
      | some f1 =>
        if slow.bind next = next f1 then some true
        else floydLoop n next (slow.bind next) (next f1) fuel

def hasCycle (n : Nat) (next : Fin n → Option (Fin n))
    (head : Option (Fin n)) : Option Bool :=
  floydLoop n next head head (n * n + 1)

/-- A cycle is reachable from `head`: some reachable position recurs. -/
def HasCycleSpec (n : Nat) (next : Fin n → Option (Fin n))
    (head : Option (Fin n)) : Prop :=
  ∃ k m, 0 < m ∧ (ptr n next head k).isSome ∧
    ptr n next head (k + m) = ptr n next head k

section FloydLemmas

variable {n : Nat} {next : Fin n → Option (Fin n)} {head : Option (Fin n)}

lemma ptr_succ (k : Nat) :
    ptr n next head (k + 1) = (ptr n next head k).bind next := rfl

lemma ptr_add (a b : Nat) :
    ptr n next head (a + b) = ptr n next (ptr n next head a) b := by
  induction b with
  | zero => rfl
  | succ b ih =>
    rw [show a + (b + 1) = (a + b) + 1 by omega, ptr_succ, ih, ptr_succ]

lemma ptr_none_mono {k : Nat} (h : ptr n next head k = none) (j : Nat) :
    ptr n next head (k + j) = none := by
  induction j with
  | zero => exact h
  | succ j ih =>
    rw [show k + (j + 1) = (k + j) + 1 by omega, ptr_succ, ih]
    rfl

lemma ptr_isSome_mono {a b : Nat} (hab : a ≤ b)
    (h : (ptr n next head b).isSome) : (ptr n next head a).isSome := by
  by_contra hc
  rw [Option.not_isSome_iff_eq_none] at hc
  have := ptr_none_mono hc (b - a)
  rw [show a + (b - a) = b by omega] at this
  rw [this] at h
  cases h

lemma ptr_periodic {k m : Nat} (h : ptr n next head (k + m) = ptr n next head k) :
    ∀ j, k ≤ j → ptr n next head (j + m) = ptr n next head j := by
  intro j hkj
  have h1 : j + m = (k + m) + (j - k) := by omega
  have h2 : j = k + (j - k) := by omega
  rw [h1, ptr_add, h, ← ptr_add, ← h2]

lemma ptr_periodic_mul {k m : Nat} (h : ptr n next head (k + m) = ptr n next head k) :
    ∀ (i : Nat) (j : Nat), k ≤ j → ptr n next head (j + i * m) = ptr n next head j := by
  intro i
  induction i with
  | zero => intro j _; rw [Nat.zero_mul, Nat.add_zero]
  | succ i ih =>
    intro j hkj
    rw [show j + (i + 1) * m = (j + i * m) + m by ring]
    rw [ptr_periodic h _ (by omega)]
    exact ih j hkj

lemma ptr_allSome_of_cycle (hcyc : HasCycleSpec n next head) :
    ∀ j, (ptr n next head j).isSome := by
  obtain ⟨k, m, hm, hks, hkp⟩ := hcyc
  intro j
  rcases Nat.le_total j (k + m) with hj | hj
  · refine ptr_isSome_mono hj ?_
    rw [hkp]
    exact hks
  · -- j > k + m : reduce by multiples of m
    have key : ∀ d, (ptr n next head (k + d)).isSome := by
      intro d
      induction d using Nat.strong_induction_on with
      | _ d ih =>
        rcases Nat.lt_or_ge d m with hd | hd
        · refine ptr_isSome_mono (by omega : k + d ≤ k + m) ?_
          rw [hkp]
          exact hks
        · have heq : k + d = (k + (d - m)) + m := by omega
          rw [heq, ptr_periodic hkp _ (by omega)]
          exact ih (d - m) (by omega)
    have : j = k + (j - k) := by omega
    rw [this]
    exact key _

lemma exists_small_repeat (hn : ∀ j, j ≤ n → (ptr n next head j).isSome) :
    ∃ i j, i < j ∧ j ≤ n ∧ ptr n next head i = ptr n next head j := by
  have hpos : 0 < n := by
    have h0 := hn 0 (by omega)
    rcases hh : ptr n next head 0 with _ | v
    · rw [hh] at h0
      cases h0
    · exact Nat.lt_of_le_of_lt (Nat.zero_le v.1) v.2
  have hcard : Fintype.card (Fin n) < Fintype.card (Fin (n + 1)) := by
    simp
  obtain ⟨x, y, hxy, hf⟩ := Fintype.exists_ne_map_eq_of_card_lt
    (fun a : Fin (n + 1) => (ptr n next head a.1).get (hn a.1 (by omega))) hcard
  have hptr : ptr n next head x.1 = ptr n next head y.1 :=
    calc ptr n next head x.1
        = some ((ptr n next head x.1).get (hn x.1 (by omega))) :=
          (Option.some_get (hn x.1 (by omega))).symm
      _ = some ((ptr n next head y.1).get (hn y.1 (by omega))) := congrArg some hf
      _ = ptr n next head y.1 := Option.some_get (hn y.1 (by omega))
  have hne : x.1 ≠ y.1 := fun h => hxy (Fin.ext h)
  rcases Nat.lt_or_ge x.1 y.1 with h | h
  · exact ⟨x.1, y.1, h, by omega, hptr⟩
  · exact ⟨y.1, x.1, by omega, by omega, hptr.symm⟩

end FloydLemmas


section FloydMain

variable {n : Nat} {next : Fin n → Option (Fin n)} {head : Option (Fin n)}

lemma floydLoop_succ (slow fast : Option (Fin n)) (f : Nat) :
    floydLoop n next slow fast (f + 1) =
      match fast with
      | none => some false
      | some fv =>
        match next fv with
        | none => some false
        | some f1 =>
          if slow.bind next = next f1 then some true
          else floydLoop n next (slow.bind next) (next f1) f := rfl

lemma floydLoop_true (hall : ∀ j, (ptr n next head j).isSome) :
    ∀ (f t0 : Nat), (∃ t, t0 < t ∧ t ≤ t0 + f ∧
        ptr n next head t = ptr n next head (2 * t)) →
    floydLoop n next (ptr n next head t0) (ptr n next head (2 * t0)) f = some true := by
  intro f
  induction f with
  | zero =>
    rintro t0 ⟨t, h1, h2, _⟩
    omega
  | succ f ih =>
    rintro t0 ⟨t, h1, h2, hmeet⟩
    obtain ⟨fv, hfv⟩ := Option.isSome_iff_exists.mp (hall (2 * t0))
    have hp1 : ptr n next head (2 * t0 + 1) = next fv := by
      rw [ptr_succ, hfv]
      rfl
    obtain ⟨f1, hf1⟩ := Option.isSome_iff_exists.mp (hall (2 * t0 + 1))
    have hnf : next fv = some f1 := by rw [← hp1, hf1]
    have hp2 : ptr n next head (2 * t0 + 2) = next f1 := by
      rw [ptr_succ, hp1, hnf]
      rfl
    have hslow : ptr n next head (t0 + 1) = (ptr n next head t0).bind next :=
      ptr_succ t0
    simp only [floydLoop_succ, hfv, hnf]
    rw [← hslow, ← hp2]
    by_cases hsf : ptr n next head (t0 + 1) = ptr n next head (2 * t0 + 2)
    · rw [if_pos hsf]
    · rw [if_neg hsf]
      have hne : t ≠ t0 + 1 := by
        intro heq
        apply hsf
        rw [← show 2 * (t0 + 1) = 2 * t0 + 2 by ring, ← heq]
        exact hmeet
      have := ih (t0 + 1) ⟨t, by omega, by omega, hmeet⟩
      rwa [show 2 * (t0 + 1) = 2 * t0 + 2 by ring] at this

lemma floydLoop_false {N : Nat} (hnone : ptr n next head N = none)
    (hnocyc : ¬ HasCycleSpec n next head) :
    ∀ (f t0 : Nat), N ≤ 2 * t0 + 2 * f →
    floydLoop n next (ptr n next head t0) (ptr n next head (2 * t0)) (f + 1) =
      some false := by
  intro f
  induction f with
  | zero =>
    intro t0 hN
    have h2t : ptr n next head (2 * t0) = none := by
      have := ptr_none_mono hnone (2 * t0 - N)
      rwa [show N + (2 * t0 - N) = 2 * t0 by omega] at this
    simp only [floydLoop_succ, h2t]
  | succ f ih =>
    intro t0 hN
    rcases hfast : ptr n next head (2 * t0) with _ | fv
    · simp only [floydLoop_succ, hfast]
    · rcases hnf : next fv with _ | f1
      · simp only [floydLoop_succ, hfast, hnf]
      · have hp1 : ptr n next head (2 * t0 + 1) = some f1 := by
          rw [ptr_succ, hfast]
          exact hnf
        have hp2 : ptr n next head (2 * t0 + 2) = next f1 := by
          rw [ptr_succ, hp1]
          rfl
        have hslow : ptr n next head (t0 + 1) = (ptr n next head t0).bind next :=
          ptr_succ t0
        have hsome : (ptr n next head (t0 + 1)).isSome :=
          ptr_isSome_mono (by omega : t0 + 1 ≤ 2 * t0 + 1) (by rw [hp1]; rfl)
        have hneq : ptr n next head (t0 + 1) ≠ ptr n next head (2 * t0 + 2) := by
          intro heq
          apply hnocyc
          refine ⟨t0 + 1, t0 + 1, by omega, hsome, ?_⟩
          rw [show t0 + 1 + (t0 + 1) = 2 * t0 + 2 by ring]
          exact heq.symm
        simp only [floydLoop_succ, hfast, hnf]
        rw [← hslow, ← hp2, if_neg hneq]
        have := ih (t0 + 1) (by omega)
        rwa [show 2 * (t0 + 1) = 2 * t0 + 2 by ring] at this

lemma ptr_n_none_of_no_cycle (hnocyc : ¬ HasCycleSpec n next head) :
    ptr n next head n = none := by
  by_contra hc
  have hsome : (ptr n next head n).isSome := Option.ne_none_iff_isSome.mp hc
  have hall : ∀ j, j ≤ n → (ptr n next head j).isSome :=
    fun j hj => ptr_isSome_mono hj hsome
  obtain ⟨i, j, hij, hjn, hptr⟩ := exists_small_repeat hall
  exact hnocyc ⟨i, j - i, by omega, hall i (by omega),
    by rw [show i + (j - i) = j by omega]; exact hptr.symm⟩

end FloydMain

/-- C7: on every finite linked-list structure (nodes `Fin n`, a `next` map,
and an optional `head`), `hasCycle` terminates with a definite answer —
within the `n^2 + 1`-iteration fuel bound the fast pointer either falls off
the end or meets the slow pointer — and answers `true` exactly when a cycle
is reachable from `head`. -/
theorem hasCycle_correct (n : Nat) (next : Fin n → Option (Fin n))
    (head : Option (Fin n)) :
    ∃ b, hasCycle n next head = some b ∧
      (b = true ↔ HasCycleSpec n next head) := by
  by_cases hcyc : HasCycleSpec n next head
  · refine ⟨true, ?_, by simp [hcyc]⟩
    have hall := ptr_allSome_of_cycle hcyc
    obtain ⟨i, j, hij, hjn, hrep⟩ := exists_small_repeat (fun j _ => hall j)
    have hmpos : 0 < j - i := by omega
    have hper : ptr n next head (i + (j - i)) = ptr n next head i := by
      rw [show i + (j - i) = j by omega]
      exact hrep.symm
    have hti : i ≤ (j - i) * (i + 1) := by
      calc i ≤ i + 1 := by omega
        _ ≤ (j - i) * (i + 1) := Nat.le_mul_of_pos_left _ hmpos
    have hmeet : ptr n next head ((j - i) * (i + 1)) =
        ptr n next head (2 * ((j - i) * (i + 1))) := by
      have hmul := ptr_periodic_mul hper (i + 1) ((j - i) * (i + 1)) hti
      rw [show (j - i) * (i + 1) + (i + 1) * (j - i) = 2 * ((j - i) * (i + 1))
        by ring] at hmul
      exact hmul.symm
    have htle : (j - i) * (i + 1) ≤ n * n :=
      Nat.mul_le_mul (by omega) (by omega)
    have hrun := floydLoop_true hall (n * n + 1) 0
      ⟨(j - i) * (i + 1), Nat.mul_pos hmpos (by omega), by omega, hmeet⟩
    exact hrun
  · refine ⟨false, ?_, by simp [hcyc]⟩
    have hnone := ptr_n_none_of_no_cycle hcyc
    have hnn : n ≤ n * n := by
      rcases Nat.eq_zero_or_pos n with rfl | h
      · simp
      · exact Nat.le_mul_of_pos_left n h
    have hrun := floydLoop_false hnone hcyc (n * n) 0 (by omega)
    exact hrun


end JobTracker
